import Mathlib

/-!
Verification of the openclean-core stream pipeline execution model.

The repository ships only documentation for the pipeline core (docs/model,
docs/source, notebooks); the Python implementation itself is not part of the
source tree given here. All executable definitions below are therefore
modelled from the specification (spec.md) and the repository documentation,
faithful to their words, as shallow Lean embeddings.
-/

namespace OC

/-- Modelled from the spec: scalar cell values flowing through rows.
Predicates produce booleans. -/
inductive Scalar where
  | str (s : String)
  | int (n : Int)
  | bool (b : Bool)
  | null
deriving Repr, BEq, DecidableEq

/-- Modelled from the spec: the result an evaluation function produces for
one row: a single value for single-column functions, one tuple for
multi-column functions. -/
inductive Value where
  | sc (v : Scalar)
  | tup (vs : List Scalar)
deriving Repr, BEq, DecidableEq

/-- Modelled from the spec: a Schema is an ordered sequence of column
identifiers (names), unique within a schema. -/
abbrev Schema := List String

/-- Modelled from the spec: a Row is an ordered sequence of scalar values
matching a Schema in length and positional meaning. -/
abbrev Row := List Scalar

/-- A row together with the row index it carries in its dataset
(openclean keeps row indices intact across transformations). -/
abbrev IRow := Nat × Row

/-- Modelled from the spec: the error taxonomy of section 7. -/
inductive Err where
  | schemaMismatch
  | notStreamable
  | sourceExhausted
  | consumerStateError
deriving Repr, BEq, DecidableEq

/-- Modelled from the spec: an in-memory table (dataset): a schema plus
index-carrying rows. -/
structure Dataset where
  schema : Schema
  rows : List IRow
deriving Repr, BEq, DecidableEq

/-- Truthiness of a scalar predicate result: only the boolean `true`
counts. -/
def Scalar.toBool : Scalar → Bool
  | .bool b => b
  | _ => false

/-- Truthiness of an evaluation result. -/
def Value.toBool : Value → Bool
  | .sc v => v.toBool
  | .tup _ => false

/-- A cell is non-empty when it is neither null nor the empty string
(openclean's IsNotEmpty). -/
def Scalar.notEmpty : Scalar → Bool
  | .null => false
  | .str s => !(s.isEmpty)
  | _ => true

/-- Total comparison used by the Max aggregate: ints by order, strings
lexicographically, anything else by an arbitrary but fixed rule. -/
def Scalar.le : Scalar → Scalar → Bool
  | .int a, .int b => a ≤ b
  | .str a, .str b => a ≤ b
  | .null, _ => true
  | _, .null => false
  | .bool a, .bool b => !a || b
  | _, _ => true

/-- Position of a column name in a schema; `none` when the column is
absent. Column references are resolved to fixed offsets exactly once. -/
def colIndex (s : Schema) (c : String) : Option Nat :=
  s.findIdx? (fun x => x == c)

/-- Resolve a list of column names against a schema; fails if any is
absent. -/
def colIndices (s : Schema) : List String → Option (List Nat)
  | [] => some []
  | c :: cs => do
    let i ← colIndex s c
    let is ← colIndices s cs
    some (i :: is)

/-- Value of a row at a resolved offset. -/
def cellAt (r : Row) (i : Nat) : Scalar := r.getD i .null

/-- Modelled from the spec: an Evaluation Function is a declarative
expression over one or more columns: a single-column reference (`col`), a
multi-column reference (`cols`), a constant, a wrapped callable over one
column (`eval1`, openclean's `Eval`), logical combinators, the IsNotEmpty
predicate, and the whole-column aggregate `maxA` (openclean's Max) which is
explicitly excluded from stream use. -/
inductive EvalFunction where
  | col (column : String)
  | cols (columns : List String)
  | const (value : Scalar)
  | eval1 (column : String) (func : Scalar → Scalar)
  | andE (left right : EvalFunction)
  | orE (left right : EvalFunction)
  | isNotEmpty (column : String)
  | maxA (column : String)

/-- Maximum of a list of scalars under `Scalar.le` (the Max aggregate over
a full column). -/
def maxScalar : List Scalar → Scalar
  | [] => .null
  | v :: vs => if (maxScalar vs).le v then v else maxScalar vs

/-- Modelled from the spec: `prepare(schema)` binds an evaluation function
to fixed column positions and returns a callable over single rows; it
fails with `SchemaMismatch` when a referenced column is absent, and with
`NotStreamable` for whole-column aggregates, which cannot produce a row
evaluator. -/
def EvalFunction.prepare : EvalFunction → Schema → Except Err (Row → Value)
  | .col c, s =>
    match colIndex s c with
    | none => .error .schemaMismatch
    | some i => .ok (fun r => .sc (cellAt r i))
  | .cols cs, s =>
    match colIndices s cs with
    | none => .error .schemaMismatch
    | some is => .ok (fun r => .tup (is.map (cellAt r)))
  | .const v, _ => .ok (fun _ => .sc v)
  | .eval1 c f, s =>
    match colIndex s c with
    | none => .error .schemaMismatch
    | some i => .ok (fun r => .sc (f (cellAt r i)))
  | .andE a b, s => do
    let fa ← a.prepare s
    let fb ← b.prepare s
    .ok (fun r => .sc (.bool ((fa r).toBool && (fb r).toBool)))
  | .orE a b, s => do
    let fa ← a.prepare s
    let fb ← b.prepare s
    .ok (fun r => .sc (.bool ((fa r).toBool || (fb r).toBool)))
  | .isNotEmpty c, s =>
    match colIndex s c with
    | none => .error .schemaMismatch
    | some i => .ok (fun r => .sc (.bool (cellAt r i).notEmpty))
  | .maxA _, _ => .error .notStreamable

/-- Modelled from the spec: eager full-table evaluation. Returns one value
(or one tuple, for multi-column functions) per row, in row order; fails
with `SchemaMismatch` if a referenced column is absent. The aggregate
`maxA` is evaluable eagerly: it returns the column maximum for every row. -/
def EvalFunction.eval : EvalFunction → Dataset → Except Err (List Value)
  | .col c, ds =>
    match colIndex ds.schema c with
    | none => .error .schemaMismatch
    | some i => .ok (ds.rows.map (fun r => .sc (cellAt r.2 i)))
  | .cols cs, ds =>
    match colIndices ds.schema cs with
    | none => .error .schemaMismatch
    | some is => .ok (ds.rows.map (fun r => .tup (is.map (cellAt r.2))))
  | .const v, ds => .ok (ds.rows.map (fun _ => .sc v))
  | .eval1 c f, ds =>
    match colIndex ds.schema c with
    | none => .error .schemaMismatch
    | some i => .ok (ds.rows.map (fun r => .sc (f (cellAt r.2 i))))
  | .andE a b, ds => do
    let la ← a.eval ds
    let lb ← b.eval ds
    .ok (List.zipWith (fun x y => Value.sc (.bool (x.toBool && y.toBool))) la lb)
  | .orE a b, ds => do
    let la ← a.eval ds
    let lb ← b.eval ds
    .ok (List.zipWith (fun x y => Value.sc (.bool (x.toBool || y.toBool))) la lb)
  | .isNotEmpty c, ds =>
    match colIndex ds.schema c with
    | none => .error .schemaMismatch
    | some i => .ok (ds.rows.map (fun r => .sc (.bool (cellAt r.2 i).notEmpty)))
  | .maxA c, ds =>
    match colIndex ds.schema c with
    | none => .error .schemaMismatch
    | some i =>
      let m := maxScalar (ds.rows.map (fun r => cellAt r.2 i))
      .ok (ds.rows.map (fun _ => .sc m))

/-- Modelled from the spec: a Processor is an immutable, stateless
descriptor of one pipeline step; it knows how to instantiate a Consumer
given an input schema. Steps modelled: column selection, column update,
predicate filtering, and the limit step that accepts only the first n
rows (the early-termination signal). -/
inductive StreamProcessor where
  | selectP (columns : List String)
  | updateP (column : String) (func : Scalar → Scalar)
  | filterP (predicate : EvalFunction)
  | limitP (count : Nat)

/-- Modelled from the spec: output-schema computation is schema-algebraic
and must not depend on row content; it fails with `SchemaMismatch` when
the processor's configuration references an absent column (and filtering
propagates `prepare` errors, e.g. `NotStreamable`). -/
def outSchema : StreamProcessor → Schema → Except Err Schema
  | .selectP cs, s =>
    match colIndices s cs with
    | none => .error .schemaMismatch
    | some _ => .ok cs
  | .updateP c _, s =>
    match colIndex s c with
    | none => .error .schemaMismatch
    | some _ => .ok s
  | .filterP pr, s => do
    let _ ← pr.prepare s
    .ok s
  | .limitP _, s => .ok s

/-- Modelled from the spec: a live Consumer chain. Each producing consumer
records the schema it was opened with (`inCols`) and holds its downstream
consumer; the terminal collector materializes the forwarded rows. -/
inductive Consumer where
  | collector (inCols : Schema) (collected : List IRow)
  | selectC (inCols outCols : Schema) (indices : List Nat) (downstream : Consumer)
  | updateC (inCols : Schema) (index : Nat) (func : Scalar → Scalar) (downstream : Consumer)
  | filterC (inCols : Schema) (predicate : Row → Value) (downstream : Consumer)
  | limitC (inCols : Schema) (remaining : Nat) (downstream : Consumer)

/-- The schema the consumer was opened with (its input schema). -/
def Consumer.inCols : Consumer → Schema
  | .collector s _ => s
  | .selectC s _ _ _ => s
  | .updateC s _ _ _ => s
  | .filterC s _ _ => s
  | .limitC s _ _ => s

/-- The `columns` property: the schema of the rows a producing consumer
emits (for the collector, the schema of the table it materializes). -/
def Consumer.columns : Consumer → Schema
  | .collector s _ => s
  | .selectC _ s _ _ => s
  | .updateC s _ _ _ => s
  | .filterC s _ _ => s
  | .limitC s _ _ => s

/-- The downstream consumer of a producing consumer; `none` for the
terminal collector. -/
def Consumer.downstream? : Consumer → Option Consumer
  | .collector _ _ => none
  | .selectC _ _ _ d => some d
  | .updateC _ _ _ d => some d
  | .filterC _ _ d => some d
  | .limitC _ _ d => some d

/-- The i-th consumer in the chain (0 is the head). -/
def consumerAt : Consumer → Nat → Option Consumer
  | c, 0 => some c
  | .collector _ _, _ + 1 => none
  | .selectC _ _ _ d, n + 1 => consumerAt d n
  | .updateC _ _ _ d, n + 1 => consumerAt d n
  | .filterC _ _ d, n + 1 => consumerAt d n
  | .limitC _ _ d, n + 1 => consumerAt d n

/-- Number of consumers in the chain. -/
def chainLength : Consumer → Nat
  | .collector _ _ => 1
  | .selectC _ _ _ d => chainLength d + 1
  | .updateC _ _ _ d => chainLength d + 1
  | .filterC _ _ d => chainLength d + 1
  | .limitC _ _ d => chainLength d + 1

/-- The terminal collector at the end of the chain. -/
def Consumer.terminal : Consumer → Consumer
  | .collector s rs => .collector s rs
  | .selectC _ _ _ d => d.terminal
  | .updateC _ _ _ d => d.terminal
  | .filterC _ _ d => d.terminal
  | .limitC _ _ d => d.terminal

/-- Modelled from the spec: instantiation. `openChain` walks the processor
list once, threading the output schema of consumer i as the input schema
to processor i+1, appends the default materializing collector, and fails
(with `SchemaMismatch` or `NotStreamable`) before any row is consumed when
a step cannot be opened against its input schema. -/
def openChain : List StreamProcessor → Schema → Except Err Consumer
  | [], s => .ok (.collector s [])
  | .selectP cs :: ps, s =>
    match colIndices s cs with
    | none => .error .schemaMismatch
    | some is => do
      let down ← openChain ps cs
      .ok (.selectC s cs is down)
  | .updateP c f :: ps, s =>
    match colIndex s c with
    | none => .error .schemaMismatch
    | some i => do
      let down ← openChain ps s
      .ok (.updateC s i f down)
  | .filterP pr :: ps, s => do
    let g ← pr.prepare s
    let down ← openChain ps s
    .ok (.filterC s g down)
  | .limitP n :: ps, s => do
    let down ← openChain ps s
    .ok (.limitC s n down)

/-- Modelled from the spec: `consume(row)`. A producing consumer forwards
zero or one transformed rows synchronously to its downstream consumer; a
filter omits the forward for rejected rows (no placeholder); the limit
consumer signals, by returning `false`, that it accepts no further rows
once its count is exhausted. The returned consumer carries the updated
state. -/
def Consumer.consume : Consumer → IRow → Consumer × Bool
  | .collector s rs, r => (.collector s (rs ++ [r]), true)
  | .selectC s s₂ is d, (i, r) =>
    let (d₂, b) := d.consume (i, is.map (cellAt r))
    (.selectC s s₂ is d₂, b)
  | .updateC s j f d, (i, r) =>
    let (d₂, b) := d.consume (i, r.set j (f (cellAt r j)))
    (.updateC s j f d₂, b)
  | .filterC s g d, (i, r) =>
    if (g r).toBool then
      let (d₂, b) := d.consume (i, r)
      (.filterC s g d₂, b)
    else (.filterC s g d, true)
  | .limitC s n d, r =>
    match n with
    | 0 => (.limitC s 0 d, false)
    | m + 1 =>
      let (d₂, b) := d.consume r
      (.limitC s m d₂, b)

/-- The value a chain returns when closed: the terminal collector's
materialized table. -/
inductive CloseResult where
  | table (schema : Schema) (rows : List IRow)
deriving Repr, BEq, DecidableEq

/-- Modelled from the spec: `close()`. A producing consumer first closes
its downstream consumer and returns that consumer's close result, never
its own; the collector returns its finalized aggregate. -/
def Consumer.close : Consumer → CloseResult
  | .collector s rs => .table s rs
  | .selectC _ _ _ d => d.close
  | .updateC _ _ _ d => d.close
  | .filterC _ _ d => d.close
  | .limitC _ _ d => d.close

/-- Trace of the close phase: the chain positions (0 = head) in the order
their `close()` runs to completion; the downstream consumer is closed
first. -/
def closeOrder (c : Consumer) (pos : Nat) : List Nat :=
  match c with
  | .collector _ _ => [pos]
  | .selectC _ _ _ d => closeOrder d (pos + 1) ++ [pos]
  | .updateC _ _ _ d => closeOrder d (pos + 1) ++ [pos]
  | .filterC _ _ d => closeOrder d (pos + 1) ++ [pos]
  | .limitC _ _ d => closeOrder d (pos + 1) ++ [pos]

/-- Modelled from the spec: the single-pass execution loop. Pulls one row
at a time, pushes it through the chain, and stops pulling as soon as a
consumer signals it accepts no further rows. Returns the final chain
state and the number of rows pulled from the source. -/
def runRows : Consumer → List IRow → Consumer × Nat
  | c, [] => (c, 0)
  | c, r :: rs =>
    let (c₂, cont) := c.consume r
    if cont then
      let (c₃, n) := runRows c₂ rs
      (c₃, n + 1)
    else (c₂, 1)

/-- Modelled from the spec: a Pipeline definition is an ordered sequence
of Processor descriptors plus a reference to a re-iterable row source. -/
structure Pipeline where
  steps : List StreamProcessor
  source : Dataset

/-- Modelled from the spec: `append` returns a new pipeline definition
with the processor appended; the receiver is not mutated. -/
def Pipeline.append (p : Pipeline) (q : StreamProcessor) : Pipeline :=
  { steps := p.steps ++ [q], source := p.source }

/-- Instrumented run: instantiates a fresh chain, drives the single pass,
closes the chain, and also reports how many rows were pulled from the
source (0 when instantiation fails). -/
def Pipeline.runInstr (p : Pipeline) : Except Err CloseResult × Nat :=
  match openChain p.steps p.source.schema with
  | .error e => (.error e, 0)
  | .ok c =>
    let (c₂, n) := runRows c p.source.rows
    (.ok c₂.close, n)

/-- Modelled from the spec: `run()` performs instantiation, one exhaustive
pass over the source, then closes the chain and returns the terminal
result. -/
def Pipeline.run (p : Pipeline) : Except Err CloseResult :=
  p.runInstr.1

/-- Modelled from the spec: running a pipeline builds a brand-new consumer
chain and never mutates the Pipeline object; `runS` returns the run
result together with the pipeline object as it stands after the call. -/
def Pipeline.runS (p : Pipeline) : Except Err CloseResult × Pipeline :=
  (p.run, p)

/-- Modelled from the spec: consumer lifecycle states,
`Open -> Consuming -> Closed`, with no transition out of `Closed`. -/
inductive Phase where
  | opened
  | consuming
  | closed
deriving Repr, BEq, DecidableEq

/-- A consumer together with its lifecycle phase; the runtime rejects
calls that are illegal in the current phase. -/
structure LiveConsumer where
  phase : Phase
  inner : Consumer

/-- The two lifecycle calls a consumer exposes. -/
inductive LifeOp where
  | consumeOp (r : IRow)
  | closeOp

/-- Modelled from the spec: one lifecycle call. `consume` after `close`,
or a second `close`, is rejected with `ConsumerStateError` rather than
processed; a legal `consume` moves the consumer to the `consuming` phase
and a legal `close` moves it to `closed`. -/
def LiveConsumer.step : LiveConsumer → LifeOp → Except Err LiveConsumer
  | lc, .consumeOp r =>
    match lc.phase with
    | .closed => .error .consumerStateError
    | _ => .ok { phase := .consuming, inner := (lc.inner.consume r).1 }
  | lc, .closeOp =>
    match lc.phase with
    | .closed => .error .consumerStateError
    | _ => .ok { phase := .closed, inner := lc.inner }

/-- Run a sequence of lifecycle calls, stopping at the first rejection. -/
def runOps : LiveConsumer → List LifeOp → Except Err LiveConsumer
  | lc, [] => .ok lc
  | lc, op :: ops => do
    let lc₂ ← lc.step op
    runOps lc₂ ops

/-- The legal call sequences: any number of `consume` calls followed by at
most one final `close` (a prefix of a complete legal interaction). -/
def legalSeq : List LifeOp → Bool
  | [] => true
  | .closeOp :: rest => rest.isEmpty
  | .consumeOp _ :: rest => legalSeq rest

/-- Modelled from the spec: the eager `select` transformation — project
each row onto the named columns; row indices are kept intact. -/
def selectOp (ds : Dataset) (columns : List String) : Except Err Dataset :=
  match colIndices ds.schema columns with
  | none => .error .schemaMismatch
  | some is =>
    .ok { schema := columns,
          rows := ds.rows.map (fun r => (r.1, is.map (cellAt r.2))) }

/-- The scalar stored in a cell for an evaluation result (multi-column
results do not fit in one cell). -/
def Value.asScalar : Value → Scalar
  | .sc v => v
  | .tup _ => .null

/-- Modelled from the spec: the eager `inscol` transformation — insert a
new column at a given position with values computed by an evaluation
function; row indices are kept intact. -/
def inscolOp (ds : Dataset) (name : String) (pos : Nat) (values : EvalFunction) :
    Except Err Dataset := do
  let vs ← values.eval ds
  .ok { schema := ds.schema.take pos ++ name :: ds.schema.drop pos,
        rows := (ds.rows.zip vs).map
          (fun rv => (rv.1.1, rv.1.2.take pos ++ rv.2.asScalar :: rv.1.2.drop pos)) }

/-- Modelled from the spec: the eager `update` transformation — apply a
function to one column of every row; row indices are kept intact. -/
def updateOp (ds : Dataset) (column : String) (f : Scalar → Scalar) :
    Except Err Dataset :=
  match colIndex ds.schema column with
  | none => .error .schemaMismatch
  | some i =>
    .ok { schema := ds.schema,
          rows := ds.rows.map (fun r => (r.1, r.2.set i (f (cellAt r.2 i)))) }

/-- Modelled from the spec: the eager `filter` transformation — keep the
rows whose predicate value is true; surviving rows keep their original
row indices. -/
def filterOp (ds : Dataset) (predicate : EvalFunction) : Except Err Dataset := do
  let bs ← predicate.eval ds
  .ok { schema := ds.schema,
        rows := ((ds.rows.zip bs).filter (fun rb => rb.2.toBool)).map (fun rb => rb.1) }

/-- Insert an element into a sorted list just before the first element it
compares below. -/
def insertSorted (le : α → α → Bool) (x : α) : List α → List α
  | [] => [x]
  | y :: ys => if le x y then x :: y :: ys else y :: insertSorted le x ys

/-- Stable insertion sort by a boolean comparison. -/
def sortRows (le : α → α → Bool) : List α → List α
  | [] => []
  | x :: xs => insertSorted le x (sortRows le xs)

/-- Move the element at offset i to offset pos in a list. -/
def moveAt (l : List α) (i pos : Nat) : List α :=
  match l.get? i with
  | none => l
  | some x => (l.eraseIdx i).insertIdx pos x

/-- Modelled from the spec: the eager `movecols` transformation — move a
column to a new position in the schema and in every row; row indices are
kept intact. -/
def movecolsOp (ds : Dataset) (column : String) (pos : Nat) : Except Err Dataset :=
  match colIndex ds.schema column with
  | none => .error .schemaMismatch
  | some i =>
    .ok { schema := moveAt ds.schema i pos,
          rows := ds.rows.map (fun r => (r.1, moveAt r.2 i pos)) }

/-- Modelled from the spec: the eager `order_by` transformation — sort the
rows of the dataset by the values of one column; each row keeps its
original row index. -/
def orderByOp (ds : Dataset) (column : String) (reversed : Bool) : Except Err Dataset :=
  match colIndex ds.schema column with
  | none => .error .schemaMismatch
  | some i =>
    let le : IRow → IRow → Bool := fun a b =>
      if reversed then (cellAt b.2 i).le (cellAt a.2 i)
      else (cellAt a.2 i).le (cellAt b.2 i)
    .ok { schema := ds.schema, rows := sortRows le ds.rows }

/-- Uppercase an ASCII character. -/
def upperChar (c : Char) : Char :=
  if c.isLower then Char.ofNat (c.toNat - 32) else c

/-- Uppercase every character of a string (Python's `str.upper` on the
ASCII data used in the documentation examples). -/
def upperStr (s : String) : String := ⟨s.data.map upperChar⟩

/-- Uppercasing a string cell (the `str.upper` used in the documentation
examples); other scalars are unchanged. -/
def upperS : Scalar → Scalar
  | .str s => .str (upperStr s)
  | v => v

/-- Decidable equality of `Except` results, for evaluating runs on
concrete inputs. -/
instance {ε α : Type} [DecidableEq ε] [DecidableEq α] : DecidableEq (Except ε α)
  | .ok a, .ok b =>
    if h : a = b then .isTrue (by rw [h])
    else .isFalse (by intro hh; cases hh; exact h rfl)
  | .ok _, .error _ => .isFalse (by intro hh; cases hh)
  | .error _, .ok _ => .isFalse (by intro hh; cases hh)
  | .error e, .error f =>
    if h : e = f then .isTrue (by rw [h])
    else .isFalse (by intro hh; cases hh; exact h rfl)

/-- The re-run idempotence example from the spec: a re-iterable source
with rows BROOKLYN and bronx in a Borough column. -/
def boroughSource : Dataset :=
  { schema := ["Borough"],
    rows := [(0, [.str "BROOKLYN"]), (1, [.str "bronx"])] }

/-- The spec's re-run example pipeline: uppercase the Borough column with
a materializing collector. -/
def boroughPipe : Pipeline :=
  { steps := [.updateP "Borough" upperS], source := boroughSource }

/-- The spec's filter example source: a Borough column containing
BROOKLYN, the empty string, and QUEENS. -/
def filterSource : Dataset :=
  { schema := ["Borough"],
    rows := [(0, [.str "BROOKLYN"]), (1, [.str ""]), (2, [.str "QUEENS"])] }

/-- The spec's filter example pipeline: a not-empty filter on Borough. -/
def filterPipe : Pipeline :=
  { steps := [.filterP (.isNotEmpty "Borough")], source := filterSource }

/-- A 100-row source for the early-termination example. -/
def src100 : Dataset :=
  { schema := ["n"], rows := (List.range 100).map (fun i => (i, [Scalar.int i])) }

/-- The early-termination example pipeline: keep non-empty matches and
stop after the first 2 matching rows of the 100-row source. -/
def pipe100 : Pipeline :=
  { steps := [.filterP (.isNotEmpty "n"), .limitP 2], source := src100 }

/-- A small concrete dataset used to witness the transformation claims. -/
def dsW : Dataset :=
  { schema := ["a", "b"],
    rows := [(0, [.int 1, .str "x"]), (1, [.int 2, .str "y"])] }

/-! ## Helper lemmas -/

/-- Reduction of a successful monadic bind over `Except Err`. -/
@[simp]
theorem okBind (a : α) (f : α → Except Err β) :
    (Except.ok a : Except Err α) >>= f = f a := rfl

/-- Reduction of a failed monadic bind over `Except Err`. -/
@[simp]
theorem errBind (e : Err) (f : α → Except Err β) :
    (Except.error e : Except Err α) >>= f = Except.error e := rfl

/-- An evaluation function that evaluates successfully returns one value
per row of the dataset. -/
theorem eval_length (F : EvalFunction) (ds : Dataset) (vs : List Value)
    (h : F.eval ds = .ok vs) : vs.length = ds.rows.length := by
  induction F generalizing vs with
  | col c =>
    cases hc : colIndex ds.schema c <;> simp [EvalFunction.eval, hc] at h <;> simp [← h]
  | cols cs =>
    cases hc : colIndices ds.schema cs <;> simp [EvalFunction.eval, hc] at h <;> simp [← h]
  | const v =>
    simp [EvalFunction.eval] at h
    simp [← h]
  | eval1 c f =>
    cases hc : colIndex ds.schema c <;> simp [EvalFunction.eval, hc] at h <;> simp [← h]
  | andE a b iha ihb =>
    cases ha : a.eval ds with
    | error e => simp [EvalFunction.eval, ha] at h
    | ok la =>
      cases hb : b.eval ds with
      | error e => simp [EvalFunction.eval, ha, hb] at h
      | ok lb =>
        simp [EvalFunction.eval, ha, hb] at h
        simp [← h, iha la ha, ihb lb hb]
  | orE a b iha ihb =>
    cases ha : a.eval ds with
    | error e => simp [EvalFunction.eval, ha] at h
    | ok la =>
      cases hb : b.eval ds with
      | error e => simp [EvalFunction.eval, ha, hb] at h
      | ok lb =>
        simp [EvalFunction.eval, ha, hb] at h
        simp [← h, iha la ha, ihb lb hb]
  | isNotEmpty c =>
    cases hc : colIndex ds.schema c <;> simp [EvalFunction.eval, hc] at h <;> simp [← h]
  | maxA c =>
    cases hc : colIndex ds.schema c <;> simp [EvalFunction.eval, hc] at h <;> simp [← h]

/-- Closing any consumer yields the close result of its terminal
collector. -/
theorem close_eq_terminal (c : Consumer) : c.close = c.terminal.close := by
  induction c with
  | collector s rs => rfl
  | selectC s s₂ is d ih => simpa [Consumer.close, Consumer.terminal] using ih
  | updateC s j f d ih => simpa [Consumer.close, Consumer.terminal] using ih
  | filterC s g d ih => simpa [Consumer.close, Consumer.terminal] using ih
  | limitC s n d ih => simpa [Consumer.close, Consumer.terminal] using ih

/-- A chain opened against a schema records that schema as the input
schema of its head consumer. -/
theorem openChain_inCols (ps : List StreamProcessor) (s : Schema) (c : Consumer)
    (h : openChain ps s = .ok c) : c.inCols = s := by
  match ps with
  | [] =>
    simp [openChain] at h
    simp [← h, Consumer.inCols]
  | .selectP cs :: ps =>
    cases hc : colIndices s cs with
    | none => simp [openChain, hc] at h
    | some is =>
      cases hd : openChain ps cs with
      | error e => simp [openChain, hc, hd] at h
      | ok d =>
        simp only [openChain, hc, hd, okBind, Except.ok.injEq] at h
        simp [← h, Consumer.inCols]
  | .updateP col f :: ps =>
    cases hc : colIndex s col with
    | none => simp [openChain, hc] at h
    | some i =>
      cases hd : openChain ps s with
      | error e => simp [openChain, hc, hd] at h
      | ok d =>
        simp only [openChain, hc, hd, okBind, Except.ok.injEq] at h
        simp [← h, Consumer.inCols]
  | .filterP pr :: ps =>
    cases hg : pr.prepare s with
    | error e => simp [openChain, hg] at h
    | ok g =>
      cases hd : openChain ps s with
      | error e => simp [openChain, hg, hd] at h
      | ok d =>
        simp only [openChain, hg, hd, okBind, Except.ok.injEq] at h
        simp [← h, Consumer.inCols]
  | .limitP n :: ps =>
    cases hd : openChain ps s with
    | error e => simp [openChain, hd] at h
    | ok d =>
      simp only [openChain, hd, okBind, Except.ok.injEq] at h
      simp [← h, Consumer.inCols]

/-- The run loop never pulls more rows than the source has. -/
theorem runRows_pulls_le (c : Consumer) (rows : List IRow) :
    (runRows c rows).2 ≤ rows.length := by
  induction rows generalizing c with
  | nil => simp [runRows]
  | cons r rs ih =>
    rcases hcr : c.consume r with ⟨c₂, cont⟩
    cases cont
    · simp [runRows, hcr]
    · simp only [runRows, hcr, if_true]
      have := ih c₂
      simp
      omega

/-- Consuming a row does not change the shape of the chain: the close
order trace is preserved. -/
theorem consume_closeOrder (c : Consumer) (r : IRow) (pos : Nat) :
    closeOrder (c.consume r).1 pos = closeOrder c pos := by
  induction c generalizing r pos with
  | collector s rs => rfl
  | selectC s s₂ is d ih =>
    obtain ⟨i, row⟩ := r
    simp [Consumer.consume, closeOrder, ih]
  | updateC s j f d ih =>
    obtain ⟨i, row⟩ := r
    simp [Consumer.consume, closeOrder, ih]
  | filterC s g d ih =>
    obtain ⟨i, row⟩ := r
    by_cases hg : (g row).toBool <;> simp [Consumer.consume, closeOrder, hg, ih]
  | limitC s n d ih =>
    cases n <;> simp [Consumer.consume, closeOrder, ih]

/-- The run loop never changes the shape of the chain: the close order
trace is preserved. -/
theorem runRows_closeOrder (c : Consumer) (rows : List IRow) (pos : Nat) :
    closeOrder (runRows c rows).1 pos = closeOrder c pos := by
  induction rows generalizing c with
  | nil => rfl
  | cons r rs ih =>
    rcases hcr : c.consume r with ⟨c₂, cont⟩
    have hshape : closeOrder c₂ pos = closeOrder c pos := by
      have := consume_closeOrder c r pos
      rw [hcr] at this
      exact this
    cases cont
    · simp [runRows, hcr, hshape]
    · simp only [runRows, hcr, if_true]
      rw [← hshape]
      exact ih c₂

/-- Whether an `Except` computation succeeded. -/
def isOk : Except Err α → Bool
  | .ok _ => true
  | .error _ => false

/-- Driving a filter consumer over a materializing collector collects
exactly the rows that satisfy the predicate, unchanged and in their
original relative order. -/
theorem runRows_filter_collect (g : Row → Value) (s s₂ : Schema)
    (rows acc : List IRow) :
    ((runRows (.filterC s g (.collector s₂ acc)) rows).1).close =
      .table s₂ (acc ++ rows.filter (fun r => (g r.2).toBool)) := by
  induction rows generalizing acc with
  | nil => simp [runRows, Consumer.close]
  | cons r rs ih =>
    obtain ⟨i, row⟩ := r
    by_cases hg : (g row).toBool
    · simp only [runRows, Consumer.consume, hg, if_true]
      rw [ih]
      simp [List.filter_cons, hg]
    · simp [runRows, Consumer.consume, hg, ih, List.filter_cons]

/-- Driving a filter consumer over a limit consumer over a collector
collects the first n rows that satisfy the predicate, and the loop stops
as soon as the limit consumer signals. -/
theorem runRows_filter_limit_collect (g : Row → Value) (s s₂ s₃ : Schema)
    (rows : List IRow) (acc : List IRow) (n : Nat) :
    ((runRows (.filterC s g (.limitC s₂ n (.collector s₃ acc))) rows).1).close =
      .table s₃ (acc ++ (rows.filter (fun r => (g r.2).toBool)).take n) := by
  induction rows generalizing acc n with
  | nil => simp [runRows, Consumer.close]
  | cons r rs ih =>
    obtain ⟨i, row⟩ := r
    by_cases hg : (g row).toBool
    · cases n with
      | zero =>
        simp [runRows, Consumer.consume, hg, Consumer.close, List.filter_cons]
      | succ m =>
        simp only [runRows, Consumer.consume, hg, if_true]
        rw [ih]
        simp [List.filter_cons, hg]
    · simp [runRows, Consumer.consume, hg, ih, List.filter_cons]

/-- Once a consumer is closed, every further lifecycle call is rejected:
a call sequence from the closed state succeeds only if it is empty. -/
theorem runOps_closed (ops : List LifeOp) (lc : LiveConsumer)
    (h : lc.phase = .closed) : isOk (runOps lc ops) = ops.isEmpty := by
  cases ops with
  | nil => rfl
  | cons op ops =>
    cases op with
    | consumeOp r => simp [runOps, LiveConsumer.step, h, isOk]
    | closeOp => simp [runOps, LiveConsumer.step, h, isOk]

/-- From any not-yet-closed state, a call sequence succeeds exactly when
it is any number of consume calls followed by at most one final close. -/
theorem runOps_notClosed (ops : List LifeOp) (lc : LiveConsumer)
    (h : lc.phase ≠ .closed) : isOk (runOps lc ops) = legalSeq ops := by
  induction ops generalizing lc with
  | nil => rfl
  | cons op ops ih =>
    cases op with
    | consumeOp r =>
      cases hp : lc.phase with
      | closed => exact absurd hp h
      | opened =>
        simp only [runOps, LiveConsumer.step, hp, okBind]
        rw [ih _ (by simp)]
        rfl
      | consuming =>
        simp only [runOps, LiveConsumer.step, hp, okBind]
        rw [ih _ (by simp)]
        rfl
    | closeOp =>
      cases hp : lc.phase with
      | closed => exact absurd hp h
      | opened =>
        simp only [runOps, LiveConsumer.step, hp, okBind]
        rw [runOps_closed _ _ (by simp)]
        rfl
      | consuming =>
        simp only [runOps, LiveConsumer.step, hp, okBind]
        rw [runOps_closed _ _ (by simp)]
        rfl

/-- Inserting into a list yields a permutation of consing. -/
theorem insertSorted_perm (le : α → α → Bool) (x : α) (l : List α) :
    (insertSorted le x l).Perm (x :: l) := by
  induction l with
  | nil => exact List.Perm.refl _
  | cons y ys ih =>
    by_cases h : le x y
    · simp [insertSorted, h]
    · simp only [insertSorted, h, if_false, Bool.false_eq_true]
      exact (ih.cons y).trans (List.Perm.swap x y ys)

/-- Insertion sort permutes its input. -/
theorem sortRows_perm (le : α → α → Bool) (l : List α) :
    (sortRows le l).Perm l := by
  induction l with
  | nil => exact List.Perm.refl _
  | cons x xs ih =>
    exact (insertSorted_perm le x (sortRows le xs)).trans (ih.cons x)

/-- Adjacent consumers in an instantiated chain agree on schemas: each
consumer's input schema is the columns property of the consumer opened
just before it. -/
theorem chainThread (ps : List StreamProcessor) :
    ∀ (s₀ : Schema) (c : Consumer), openChain ps s₀ = .ok c →
    ∀ (i : Nat) (ci cj : Consumer),
      consumerAt c i = some ci → consumerAt c (i + 1) = some cj →
      cj.inCols = ci.columns := by
  induction ps with
  | nil =>
    intro s₀ c h i ci cj hci hcj
    simp only [openChain, Except.ok.injEq] at h
    subst h
    cases i <;> simp [consumerAt] at hcj
  | cons p ps ih =>
    intro s₀ c h i ci cj hci hcj
    cases p with
    | selectP cs =>
      cases hc : colIndices s₀ cs with
      | none => simp [openChain, hc] at h
      | some is =>
        cases hd : openChain ps cs with
        | error e => simp [openChain, hc, hd] at h
        | ok d =>
          simp only [openChain, hc, hd, okBind, Except.ok.injEq] at h
          subst h
          cases i with
          | zero =>
            simp only [consumerAt, Option.some.injEq] at hci hcj
            subst hci
            subst hcj
            simpa [Consumer.columns] using openChain_inCols ps cs d hd
          | succ k =>
            exact ih cs d hd k ci cj (by simpa [consumerAt] using hci)
              (by simpa [consumerAt] using hcj)
    | updateP cl f =>
      cases hc : colIndex s₀ cl with
      | none => simp [openChain, hc] at h
      | some j =>
        cases hd : openChain ps s₀ with
        | error e => simp [openChain, hc, hd] at h
        | ok d =>
          simp only [openChain, hc, hd, okBind, Except.ok.injEq] at h
          subst h
          cases i with
          | zero =>
            simp only [consumerAt, Option.some.injEq] at hci hcj
            subst hci
            subst hcj
            simpa [Consumer.columns] using openChain_inCols ps s₀ d hd
          | succ k =>
            exact ih s₀ d hd k ci cj (by simpa [consumerAt] using hci)
              (by simpa [consumerAt] using hcj)
    | filterP pr =>
      cases hg : pr.prepare s₀ with
      | error e => simp [openChain, hg] at h
      | ok g =>
        cases hd : openChain ps s₀ with
        | error e => simp [openChain, hg, hd] at h
        | ok d =>
          simp only [openChain, hg, hd, okBind, Except.ok.injEq] at h
          subst h
          cases i with
          | zero =>
            simp only [consumerAt, Option.some.injEq] at hci hcj
            subst hci
            subst hcj
            simpa [Consumer.columns] using openChain_inCols ps s₀ d hd
          | succ k =>
            exact ih s₀ d hd k ci cj (by simpa [consumerAt] using hci)
              (by simpa [consumerAt] using hcj)
    | limitP n =>
      cases hd : openChain ps s₀ with
      | error e => simp [openChain, hd] at h
      | ok d =>
        simp only [openChain, hd, okBind, Except.ok.injEq] at h
        subst h
        cases i with
        | zero =>
          simp only [consumerAt, Option.some.injEq] at hci hcj
          subst hci
          subst hcj
          simpa [Consumer.columns] using openChain_inCols ps s₀ d hd
        | succ k =>
          exact ih s₀ d hd k ci cj (by simpa [consumerAt] using hci)
            (by simpa [consumerAt] using hcj)

/-! ## Claim theorems -/

/-- C1. Schema threading: in any successfully instantiated pipeline the
input schema of consumer i+1 equals the columns property (output schema)
of consumer i; a step whose configuration names an absent column makes
instantiation fail with SchemaMismatch; and any instantiation failure is
reported with zero rows pulled from the source. -/
theorem schema_threading :
    (∀ (ps : List StreamProcessor) (s₀ : Schema) (c : Consumer),
      openChain ps s₀ = .ok c →
      ∀ (i : Nat) (ci cj : Consumer),
        consumerAt c i = some ci → consumerAt c (i + 1) = some cj →
        cj.inCols = ci.columns) ∧
    (∀ (cs : List String) (ps : List StreamProcessor) (s : Schema),
      colIndices s cs = none →
      openChain (.selectP cs :: ps) s = .error .schemaMismatch) ∧
    (∀ (p : Pipeline) (e : Err),
      openChain p.steps p.source.schema = .error e →
      p.runInstr = (.error e, 0)) := by
  refine ⟨fun ps s₀ c h => chainThread ps s₀ c h, ?_, ?_⟩
  · intro cs ps s hn
    simp [openChain, hn]
  · intro p e h
    simp [Pipeline.runInstr, h]

/-- Witness for C1 at a concrete pipeline: a select step opened against
the base schema, and a pipeline naming an absent column. -/
theorem schema_threading_witness :
    (Consumer.collector ["a"] []).inCols =
      (Consumer.selectC ["a", "b"] ["a"] [0] (Consumer.collector ["a"] [])).columns ∧
    Pipeline.runInstr ⟨[.selectP ["zzz"]], dsW⟩ = (.error .schemaMismatch, 0) :=
  ⟨schema_threading.1 [.selectP ["a"]] ["a", "b"]
      (.selectC ["a", "b"] ["a"] [0] (.collector ["a"] [])) rfl 0
      (.selectC ["a", "b"] ["a"] [0] (.collector ["a"] []))
      (.collector ["a"] []) rfl rfl,
   schema_threading.2.2 ⟨[.selectP ["zzz"]], dsW⟩ .schemaMismatch rfl⟩

/-- C2. Collector transparency: a producing consumer's close returns its
downstream consumer's close result, never its own; hence running a
pipeline returns exactly the terminal collector's close value. -/
theorem collector_transparency :
    (∀ (c d : Consumer), c.downstream? = some d → c.close = d.close) ∧
    (∀ (p : Pipeline) (c : Consumer),
      openChain p.steps p.source.schema = .ok c →
      p.run = .ok ((runRows c p.source.rows).1.terminal.close)) := by
  constructor
  · intro c d h
    cases c with
    | collector s rs => simp [Consumer.downstream?] at h
    | selectC s s₂ is d₂ =>
      simp only [Consumer.downstream?, Option.some.injEq] at h
      subst h
      rfl
    | updateC s j f d₂ =>
      simp only [Consumer.downstream?, Option.some.injEq] at h
      subst h
      rfl
    | filterC s g d₂ =>
      simp only [Consumer.downstream?, Option.some.injEq] at h
      subst h
      rfl
    | limitC s n d₂ =>
      simp only [Consumer.downstream?, Option.some.injEq] at h
      subst h
      rfl
  · intro p c h
    simp [Pipeline.run, Pipeline.runInstr, h, ← close_eq_terminal]

/-- Witness for C2 at a concrete producing consumer and pipeline. -/
theorem collector_transparency_witness :
    (Consumer.limitC ["a"] 5 (.collector ["a"] [])).close =
      (Consumer.collector ["a"] ([] : List IRow)).close ∧
    boroughPipe.run = .ok ((runRows
      (.updateC ["Borough"] 0 upperS (.collector ["Borough"] []))
      boroughSource.rows).1.terminal.close) :=
  ⟨collector_transparency.1 (.limitC ["a"] 5 (.collector ["a"] []))
      (.collector ["a"] []) rfl,
   collector_transparency.2 boroughPipe
      (.updateC ["Borough"] 0 upperS (.collector ["Borough"] [])) rfl⟩

/-- C3. Prepare/eval equivalence: whenever an evaluation function can be
prepared against a table's schema, its eager evaluation over the table
equals, value for value and in order, the prepared row evaluator applied
to each row of the table. -/
theorem prepare_eval_equivalence (F : EvalFunction) (ds : Dataset) :
    ∀ (g : Row → Value), F.prepare ds.schema = .ok g →
      F.eval ds = .ok (ds.rows.map (fun r => g r.2)) := by
  induction F with
  | col c =>
    intro g h
    cases hc : colIndex ds.schema c with
    | none => simp [EvalFunction.prepare, hc] at h
    | some i =>
      simp only [EvalFunction.prepare, hc, Except.ok.injEq] at h
      subst h
      simp [EvalFunction.eval, hc]
  | cols cs =>
    intro g h
    cases hc : colIndices ds.schema cs with
    | none => simp [EvalFunction.prepare, hc] at h
    | some is =>
      simp only [EvalFunction.prepare, hc, Except.ok.injEq] at h
      subst h
      simp [EvalFunction.eval, hc]
  | const v =>
    intro g h
    simp only [EvalFunction.prepare, Except.ok.injEq] at h
    subst h
    simp [EvalFunction.eval]
  | eval1 c f =>
    intro g h
    cases hc : colIndex ds.schema c with
    | none => simp [EvalFunction.prepare, hc] at h
    | some i =>
      simp only [EvalFunction.prepare, hc, Except.ok.injEq] at h
      subst h
      simp [EvalFunction.eval, hc]
  | andE a b iha ihb =>
    intro g h
    cases ha : a.prepare ds.schema with
    | error e => simp [EvalFunction.prepare, ha] at h
    | ok fa =>
      cases hb : b.prepare ds.schema with
      | error e => simp [EvalFunction.prepare, ha, hb] at h
      | ok fb =>
        simp only [EvalFunction.prepare, ha, hb, okBind, Except.ok.injEq] at h
        subst h
        simp only [EvalFunction.eval, iha fa ha, ihb fb hb, okBind]
        simp [List.zipWith_map]
  | orE a b iha ihb =>
    intro g h
    cases ha : a.prepare ds.schema with
    | error e => simp [EvalFunction.prepare, ha] at h
    | ok fa =>
      cases hb : b.prepare ds.schema with
      | error e => simp [EvalFunction.prepare, ha, hb] at h
      | ok fb =>
        simp only [EvalFunction.prepare, ha, hb, okBind, Except.ok.injEq] at h
        subst h
        simp only [EvalFunction.eval, iha fa ha, ihb fb hb, okBind]
        simp [List.zipWith_map]
  | isNotEmpty c =>
    intro g h
    cases hc : colIndex ds.schema c with
    | none => simp [EvalFunction.prepare, hc] at h
    | some i =>
      simp only [EvalFunction.prepare, hc, Except.ok.injEq] at h
      subst h
      simp [EvalFunction.eval, hc]
  | maxA c =>
    intro g h
    simp [EvalFunction.prepare] at h

/-- Witness for C3: a column-reference function prepared and evaluated
against a one-column table. -/
theorem prepare_eval_equivalence_witness :
    (EvalFunction.col "a").eval ⟨["a"], [(0, [.int 5])]⟩ =
      .ok ([((0 : Nat), [Scalar.int 5])].map
        (fun r => (fun r₂ => Value.sc (cellAt r₂ 0)) r.2)) :=
  prepare_eval_equivalence (.col "a") ⟨["a"], [(0, [.int 5])]⟩
    (fun r₂ => Value.sc (cellAt r₂ 0)) rfl

/-- C4. Non-streamable rejection: preparing the aggregate-backed Max
function raises NotStreamable for every schema, and a pipeline step using
it fails at instantiation time, with zero rows pulled from the source. -/
theorem notStreamable_rejection :
    (∀ (c : String) (s : Schema),
      (EvalFunction.maxA c).prepare s = .error .notStreamable) ∧
    (∀ (c : String) (ps : List StreamProcessor) (src : Dataset),
      Pipeline.runInstr ⟨.filterP (.maxA c) :: ps, src⟩ =
        (.error .notStreamable, 0)) := by
  exact ⟨fun c s => rfl, fun c ps src => rfl⟩

/-- C5. Re-run idempotence: running never mutates the Pipeline object and
two successive runs of the same pipeline return equal results; in
particular the spec's Borough example yields the same uppercased table on
both of two successive runs. -/
theorem rerun_idempotence :
    (∀ p : Pipeline, p.runS.2 = p ∧ (p.runS.2).runS.1 = p.runS.1) ∧
    boroughPipe.runS.1 =
      .ok (.table ["Borough"] [(0, [.str "BROOKLYN"]), (1, [.str "BRONX"])]) ∧
    (boroughPipe.runS.2).runS.1 =
      .ok (.table ["Borough"] [(0, [.str "BROOKLYN"]), (1, [.str "BRONX"])]) := by
  refine ⟨fun p => ⟨rfl, rfl⟩, ?_, ?_⟩ <;> rfl

/-- C6. Consumer lifecycle: starting from the open state, a sequence of
lifecycle calls succeeds exactly when it is any number of consume calls
followed by at most one final close; and from the closed state no call
ever succeeds, so there is no transition out of Closed. -/
theorem consumer_lifecycle :
    (∀ (c : Consumer) (ops : List LifeOp),
      isOk (runOps ⟨.opened, c⟩ ops) = legalSeq ops) ∧
    (∀ (lc : LiveConsumer) (op : LifeOp) (lc₂ : LiveConsumer),
      lc.phase = .closed → ¬ (lc.step op = .ok lc₂)) := by
  constructor
  · intro c ops
    exact runOps_notClosed ops ⟨.opened, c⟩ (by simp)
  · intro lc op lc₂ h
    cases op with
    | consumeOp r => simp [LiveConsumer.step, h]
    | closeOp => simp [LiveConsumer.step, h]

/-- Witness for C6: a closed consumer rejects a second close, and a legal
consume-then-close sequence from the open state succeeds. -/
theorem consumer_lifecycle_witness :
    ¬ ((LiveConsumer.mk .closed (.collector ["a"] [])).step .closeOp =
        .ok (LiveConsumer.mk .closed (.collector ["a"] []))) ∧
    isOk (runOps ⟨.opened, .collector ["a"] []⟩
      [.consumeOp (0, [.int 1]), .closeOp]) =
      legalSeq [.consumeOp (0, [.int 1]), .closeOp] :=
  ⟨consumer_lifecycle.2 ⟨.closed, .collector ["a"] []⟩ .closeOp
      ⟨.closed, .collector ["a"] []⟩ rfl,
   consumer_lifecycle.1 (.collector ["a"] [])
      [.consumeOp (0, [.int 1]), .closeOp]⟩

/-- C7. Early termination: a filter-then-limit-2 pipeline over a 100-row
source with at least 2 matching rows pulls at most 100 rows, forwards
exactly the first 2 matching rows past the limit step (and exactly 2 of
them), and the close phase still closes every consumer in the chain
exactly once, downstream first. -/
theorem early_termination (src : Dataset) (pred : EvalFunction) (g : Row → Value)
    (hp : pred.prepare src.schema = .ok g)
    (hlen : src.rows.length = 100)
    (hm : 2 ≤ (src.rows.filter (fun r => (g r.2).toBool)).length) :
    (Pipeline.runInstr ⟨[.filterP pred, .limitP 2], src⟩).2 ≤ 100 ∧
    (Pipeline.runInstr ⟨[.filterP pred, .limitP 2], src⟩).1 =
      .ok (.table src.schema
        ((src.rows.filter (fun r => (g r.2).toBool)).take 2)) ∧
    ((src.rows.filter (fun r => (g r.2).toBool)).take 2).length = 2 ∧
    (∀ c, openChain [.filterP pred, .limitP 2] src.schema = .ok c →
      closeOrder (runRows c src.rows).1 0 = [2, 1, 0]) := by
  have hopen : openChain [.filterP pred, .limitP 2] src.schema =
      .ok (.filterC src.schema g
        (.limitC src.schema 2 (.collector src.schema []))) := by
    simp [openChain, hp]
  refine ⟨?_, ?_, ?_, ?_⟩
  · simp only [Pipeline.runInstr, hopen]
    have := runRows_pulls_le
      (.filterC src.schema g (.limitC src.schema 2 (.collector src.schema [])))
      src.rows
    omega
  · simp only [Pipeline.runInstr, hopen, Except.ok.injEq]
    simpa using runRows_filter_limit_collect g src.schema src.schema src.schema
      src.rows [] 2
  · rw [List.length_take]
    omega
  · intro c hc
    rw [hopen] at hc
    injection hc with hc
    subst hc
    rw [runRows_closeOrder]
    rfl

/-- Witness for C7 at the concrete 100-row source with a not-empty filter
(all 100 rows match). -/
theorem early_termination_witness :
    (Pipeline.runInstr ⟨[.filterP (.isNotEmpty "n"), .limitP 2], src100⟩).2 ≤ 100 ∧
    ((src100.rows.filter
      (fun r => ((fun r₂ => Value.sc (.bool (cellAt r₂ 0).notEmpty)) r.2).toBool)).take 2).length = 2 :=
  ⟨(early_termination src100 (.isNotEmpty "n")
      (fun r₂ => Value.sc (.bool (cellAt r₂ 0).notEmpty)) rfl
      (by simp [src100]) (by decide)).1,
   (early_termination src100 (.isNotEmpty "n")
      (fun r₂ => Value.sc (.bool (cellAt r₂ 0).notEmpty)) rfl
      (by simp [src100]) (by decide)).2.2.1⟩

/-- C8. Filter correctness: a predicate filter consumer forwards exactly
the rows satisfying the predicate, unchanged and in their original
relative order (the survivors form a sublist of the input), and the
spec's Borough example materializes BROOKLYN and QUEENS in order. -/
theorem filter_correctness :
    (∀ (s s₂ : Schema) (g : Row → Value) (rows : List IRow),
      ((runRows (.filterC s g (.collector s₂ [])) rows).1).close =
        .table s₂ (rows.filter (fun r => (g r.2).toBool))) ∧
    (∀ (g : Row → Value) (rows : List IRow),
      List.Sublist (rows.filter (fun r => (g r.2).toBool)) rows) ∧
    filterPipe.run =
      .ok (.table ["Borough"] [(0, [.str "BROOKLYN"]), (2, [.str "QUEENS"])]) := by
  refine ⟨?_, ?_, ?_⟩
  · intro s s₂ g rows
    simpa using runRows_filter_collect g s s₂ rows []
  · intro g rows
    exact List.filter_sublist rows
  · rfl

/-- C9. Append purity: `append` returns a new pipeline definition whose
steps are the receiver's steps followed by the new processor, over the
same source; the receiver itself, an immutable value, is untouched. -/
theorem append_returns_new (p : Pipeline) (q : StreamProcessor) :
    (p.append q).steps = p.steps ++ [q] ∧ (p.append q).source = p.source :=
  ⟨rfl, rfl⟩

/-- C10. Row indices kept intact: select, inscol, update and movecols
preserve the row-index sequence exactly (the result row at each position
carries the index of the input row at that position); filter keeps the
surviving (index, row) pairs themselves as a sublist of the input pairs
(original pairing, original order); order_by permutes the (index, row)
pairs whole, so every row keeps the index it was paired with and results
align back to the original dataset by index. -/
theorem row_indices_intact (ds : Dataset) :
    (∀ (cs : List String) (ds₂ : Dataset), selectOp ds cs = .ok ds₂ →
      ds₂.rows.map Prod.fst = ds.rows.map Prod.fst) ∧
    (∀ (name : String) (pos : Nat) (vf : EvalFunction) (ds₂ : Dataset),
      inscolOp ds name pos vf = .ok ds₂ →
      ds₂.rows.map Prod.fst = ds.rows.map Prod.fst) ∧
    (∀ (c : String) (f : Scalar → Scalar) (ds₂ : Dataset),
      updateOp ds c f = .ok ds₂ →
      ds₂.rows.map Prod.fst = ds.rows.map Prod.fst) ∧
    (∀ (pr : EvalFunction) (ds₂ : Dataset), filterOp ds pr = .ok ds₂ →
      List.Sublist ds₂.rows ds.rows) ∧
    (∀ (c : String) (pos : Nat) (ds₂ : Dataset), movecolsOp ds c pos = .ok ds₂ →
      ds₂.rows.map Prod.fst = ds.rows.map Prod.fst) ∧
    (∀ (c : String) (rev : Bool) (ds₂ : Dataset), orderByOp ds c rev = .ok ds₂ →
      List.Perm ds₂.rows ds.rows) := by
  refine ⟨?_, ?_, ?_, ?_, ?_, ?_⟩
  · intro cs ds₂ h
    cases hc : colIndices ds.schema cs with
    | none => simp [selectOp, hc] at h
    | some is =>
      simp only [selectOp, hc, Except.ok.injEq] at h
      subst h
      simp [List.map_map, Function.comp]
  · intro name pos vf ds₂ h
    cases he : vf.eval ds with
    | error e => simp [inscolOp, he] at h
    | ok vs =>
      have hlen : ds.rows.length ≤ vs.length := by
        rw [eval_length vf ds vs he]
      simp only [inscolOp, he, okBind, Except.ok.injEq] at h
      subst h
      simp only [List.map_map]
      have : (Prod.fst ∘ fun rv : IRow × Value =>
          (rv.1.1, rv.1.2.take pos ++ rv.2.asScalar :: rv.1.2.drop pos)) =
          Prod.fst ∘ (Prod.fst : IRow × Value → IRow) := by
        funext rv
        rfl
      rw [this, ← List.map_map, List.map_fst_zip ds.rows vs hlen]
  · intro c f ds₂ h
    cases hc : colIndex ds.schema c with
    | none => simp [updateOp, hc] at h
    | some i =>
      simp only [updateOp, hc, Except.ok.injEq] at h
      subst h
      simp [List.map_map, Function.comp]
  · intro pr ds₂ h
    cases he : pr.eval ds with
    | error e => simp [filterOp, he] at h
    | ok bs =>
      have hlen : ds.rows.length ≤ bs.length := by
        rw [eval_length pr ds bs he]
      simp only [filterOp, he, okBind, Except.ok.injEq] at h
      subst h
      have h₁ : List.Sublist
          (((ds.rows.zip bs).filter (fun rb => rb.2.toBool)).map Prod.fst)
          ((ds.rows.zip bs).map Prod.fst) :=
        (List.filter_sublist (ds.rows.zip bs)).map Prod.fst
      rw [List.map_fst_zip ds.rows bs hlen] at h₁
      exact h₁
  · intro c pos ds₂ h
    cases hc : colIndex ds.schema c with
    | none => simp [movecolsOp, hc] at h
    | some i =>
      simp only [movecolsOp, hc, Except.ok.injEq] at h
      subst h
      simp [List.map_map, Function.comp]
  · intro c rev ds₂ h
    cases hc : colIndex ds.schema c with
    | none => simp [orderByOp, hc] at h
    | some i =>
      simp only [orderByOp, hc, Except.ok.injEq] at h
      subst h
      exact sortRows_perm _ ds.rows

/-- Witness for C10 at a concrete dataset: a select, a filter and an
order_by on the two-row dataset, with pair-level conclusions for the
latter two. -/
theorem row_indices_intact_witness :
    (Dataset.mk ["b"] [(0, [.str "x"]), (1, [.str "y"])]).rows.map Prod.fst =
      dsW.rows.map Prod.fst ∧
    List.Sublist
      (Dataset.mk ["a", "b"]
        [(0, [.int 1, .str "x"]), (1, [.int 2, .str "y"])]).rows
      dsW.rows ∧
    List.Perm
      (Dataset.mk ["a", "b"]
        [(0, [.int 1, .str "x"]), (1, [.int 2, .str "y"])]).rows
      dsW.rows :=
  ⟨(row_indices_intact dsW).1 ["b"]
      (Dataset.mk ["b"] [(0, [.str "x"]), (1, [.str "y"])]) rfl,
   (row_indices_intact dsW).2.2.2.1 (.isNotEmpty "a")
      (Dataset.mk ["a", "b"]
        [(0, [.int 1, .str "x"]), (1, [.int 2, .str "y"])]) (by decide),
   (row_indices_intact dsW).2.2.2.2.2 "a" false
      (Dataset.mk ["a", "b"]
        [(0, [.int 1, .str "x"]), (1, [.int 2, .str "y"])]) (by decide)⟩

end OC
